import Mathlib

/-!
# Formal model of `scripts/loc_manager.py`

A shallow embedding of the lines-of-code history manager:

* `format_number` — the badge magnitude formatter (source lines 28–35);
* `get_daily_commits_since` — the commit day selector over the raw
  `git log` output (source lines 41–60);
* `count_lines_at_commit` — the tokei-based counter with its
  substitute-zero-on-failure behaviour (source lines 62–82);
* `load_history` — the history-loading step of `process_repo`
  (source lines 108–111);
* `process_backfill` / `runBackfill` — the incremental backfill loop of
  `process_repo` (source lines 127–145).

Dates are the `"YYYY-MM-DD"` strings the script manipulates; comparing such
strings lexicographically agrees with chronological order, so `String`
together with its linear order models the date axis faithfully.
-/

/-- One stored history record, `{"date": "YYYY-MM-DD", "lines": n}`.
Tokei code counts are non-negative, so `lines` is a `Nat`. -/
structure Record where
  date : String
  lines : Nat
deriving DecidableEq, Repr

/-- One decimal place rounding of `num / den` (half to even), rendered as
`"<integer part>.<tenths digit>"`.  This is what the Python format spec
`:.1f` produces whenever `num / den` is exactly representable as a double,
which holds at every value the badge claims exercise (exact multiples of
`den / 10` well below `2^53`). -/
def formatOneDecimal (num den : Nat) : String :=
  let t := num * 10
  let q := t / den
  let r := t % den
  let tenths :=
    if den < 2 * r then q + 1
    else if 2 * r < den then q
    else if q % 2 = 0 then q else q + 1
  toString (tenths / 10) ++ "." ++ toString (tenths % 10)

/-- `format_number` (source lines 28–35):

```python
if lines > 1000000: return f"{lines / 1000000:.1f}M"
elif lines > 1000:  return f"{lines / 1000:.1f}k"
else:               return str(lines)
``` -/
def format_number (lines : Nat) : String :=
  if lines > 1000000 then formatOneDecimal lines 1000000 ++ "M"
  else if lines > 1000 then formatOneDecimal lines 1000 ++ "k"
  else toString lines

/-- The result of the try block of `count_lines_at_commit` (run tokei,
`json.loads` its output, read `data["Total"]["code"]` as an int): `none`
models any raised exception (counter crash, unparseable output, missing
key, failed checkout having left the tree unreadable); the except branch
of the source returns `0` (source lines 74–82). -/
def count_lines_at_commit (attempt : Option Nat) : Nat :=
  match attempt with
  | some n => n
  | none => 0

/-- History loading in `process_repo` (source lines 108–111):

```python
history = []
if os.path.exists(history_path):
    with open(history_path, 'r') as f:
        history = json.load(f)
```

`jsonLoad` is the outcome of `json.load` on the existing document:
`Except.error` models a raised `JSONDecodeError`.  There is no
try/except around the load, so an error result propagates. -/
def load_history (fileExists : Bool) (jsonLoad : Except String (List Record)) :
    Except String (List Record) :=
  if fileExists then jsonLoad else Except.ok []

/-- The mutable state of the backfill loop in `process_repo`:
`history`, `last_lines`, `changes_made`, `current_lines`
(source lines 113–141). -/
structure BFState where
  history : List Record
  last_lines : Nat
  changes_made : Bool
  current_lines : Nat
deriving DecidableEq, Repr

/-- One iteration of the backfill loop (source lines 134–141), for one
day entry `(date, measured line count)`:

```python
lines = count_lines_at_commit(temp_dir, sha)
current_lines = lines
if lines != last_lines:
    history.append({"date": date, "lines": lines})
    last_lines = lines
    changes_made = True
``` -/
def bfStep (st : BFState) (e : String × Nat) : BFState :=
  let lines := e.2
  let st1 := { st with current_lines := lines }
  if lines ≠ st1.last_lines then
    { st1 with
        history := st1.history ++ [⟨e.1, lines⟩]
        last_lines := lines
        changes_made := true }
  else st1

/-- `history[-1]["lines"] if history else 0` (source line 114). -/
def lastLinesOf (history : List Record) : Nat :=
  match history.getLast? with
  | some r => r.lines
  | none => 0

/-- The backfill phase of `process_repo` (source lines 127–145), with the
measured day entries `(date, count)` supplied as data: `measured` lists, in
the order the loop sees them, each selected day together with the value
`count_lines_at_commit` returned at its representative commit.
`freshCount` is the count of the currently checked-out snapshot, used only
by the `else` branch (`if commits:` is false). -/
def process_backfill (history : List Record) (measured : List (String × Nat))
    (freshCount : Nat) : BFState :=
  let init : BFState :=
    { history := history
      last_lines := lastLinesOf history
      changes_made := false
      current_lines := lastLinesOf history }
  match measured with
  | [] => { init with current_lines := freshCount }
  | _ => measured.foldl bfStep init

/-- Day selection for one pass: `last_date` is read from the stored history
(`get_last_recorded_date`, source lines 37–39, 113) and the log query keeps
only commits strictly after the `--since` cutoff at `23:59:59` of that date
(source lines 44–46), i.e. only days strictly after `last_date`; with no
history the full log is used. -/
def selectedDays (allDays : List (String × Nat)) (history : List Record) :
    List (String × Nat) :=
  match history.getLast? with
  | some r => allDays.filter (fun e => r.date < e.1)
  | none => allDays

/-- One full backfill pass over a repository.  `allDays` models the world:
for every calendar day of the full commit log, the line count measured at
the representative (last) commit of that day, in ascending date order.
The pass recomputes `last_date` from the stored history, re-selects the
outstanding days (source line 128) and runs the loop. -/
def runBackfill (allDays : List (String × Nat)) (history : List Record)
    (freshCount : Nat) : BFState :=
  process_backfill history (selectedDays allDays history) freshCount

/-- The backfill loop with the counter left fallible, gluing
`count_lines_at_commit` into `process_backfill`: `measure d` is the
counter attempt for day `d` (source line 135). -/
def runBackfillWithCounter (history : List Record) (days : List String)
    (measure : String → Option Nat) (freshCount : Nat) : BFState :=
  process_backfill history
    (days.map (fun d => (d, count_lines_at_commit (measure d)))) freshCount

/-- The space separator of `line.split(' ')` (source line 54). -/
def spaceChar : Char := Char.ofNat 32

/-- The newline separator of `raw_log.split('\n')` (source line 51). -/
def newlineChar : Char := Char.ofNat 10

/-- Splitting a character list at every occurrence of the separator `c`,
keeping empty pieces — the semantics of Python `str.split(sep)` for a
one-character separator: `"".split(c) = [""]`, `"a,,b".split(",") =
["a", "", "b"]`. -/
def splitOnChar (c : Char) : List Char → List (List Char)
  | [] => [[]]
  | a :: rest =>
    let r := splitOnChar c rest
    if a = c then [] :: r
    else
      match r with
      | [] => [[a]]
      | g :: gs => (a :: g) :: gs

/-- Python `s.split(sep)` for a one-character separator, on `String`. -/
def pySplit (sep : Char) (s : String) : List String :=
  (splitOnChar sep s.data).map (fun g => String.mk g)

/-- Parsing of one line of the `git log --format='%H %cd'` output
(source lines 54–58): `parts = line.split(' ')`; when `len(parts) >= 2`
the line yields the pair `(parts[1], parts[0])`, i.e. `(date, sha)`;
otherwise the line is skipped. -/
def parseLogLine (line : String) : Option (String × String) :=
  match pySplit spaceChar line with
  | sha :: date :: _ => some (date, sha)
  | _ => none

/-- The Python dict `daily_commits` as an insertion-ordered association
list; `updateAssoc m k v` is the assignment `m[k] = v` (overwrite in
place, or append a new key at the end). -/
def updateAssoc (m : List (String × String)) (k v : String) :
    List (String × String) :=
  match m with
  | [] => [(k, v)]
  | e :: rest => if e.1 = k then (k, v) :: rest else e :: updateAssoc rest k v

/-- One iteration of the dict-building loop of `get_daily_commits_since`
(source lines 53–58): if the line has at least two space-separated fields,
set `daily_commits[date] = sha`, otherwise leave the dict alone. -/
def dictStep (m : List (String × String)) (line : String) :
    List (String × String) :=
  match parseLogLine line with
  | some (date, sha) => updateAssoc m date sha
  | none => m

/-- The dict-building loop of `get_daily_commits_since`
(source lines 52–58): for each log line in order, if it has at least two
space-separated fields, set `daily_commits[date] = sha`; since the log is
chronological, overwriting keeps the last commit of each day. -/
def buildDaily (logLines : List String) : List (String × String) :=
  logLines.foldl dictStep []

/-- The comparison used by `sorted(daily_commits.items())`: Python sorts
the `(date, sha)` tuples lexicographically, and since the dict keys are
distinct the second component is never consulted, so the order is
by date. -/
def byDate (a b : String × String) : Prop :=
  a.1 ≤ b.1

instance : DecidableRel byDate :=
  fun a b => inferInstanceAs (Decidable (a.1 ≤ b.1))

instance : IsTotal (String × String) byDate :=
  ⟨fun a b => le_total a.1 b.1⟩

instance : IsTrans (String × String) byDate :=
  ⟨fun _ _ _ h1 h2 => le_trans h1 h2⟩

/-- `get_daily_commits_since` (source lines 41–60), as a function of the
raw log text that `git log --reverse --format='%H %cd'` printed (the
`--since` clause only changes which text git prints, not this
processing).  Empty output returns `[]`; otherwise the text is split on
newlines, the dict is built, and `sorted(daily_commits.items())` sorts
the pairs ascending.  Dict keys are distinct, so the Python tuple sort
never consults the second component: sorting by date alone is the same
ordering. -/
def get_daily_commits_since (raw_log : String) : List (String × String) :=
  if raw_log = "" then []
  else List.insertionSort byDate (buildDaily (pySplit newlineChar raw_log))

/-- The `(date, sha)` pairs of the raw log, in log (chronological) order:
exactly the lines that `get_daily_commits_since` does not skip. -/
def parsedPairs (raw_log : String) : List (String × String) :=
  if raw_log = "" then []
  else (pySplit newlineChar raw_log).filterMap parseLogLine

/-- The sha of the chronologically last commit of day `d`: the value of
the last pair of `ps` (log order, oldest first) whose date is `d`. -/
def lastShaFor (ps : List (String × String)) (d : String) : Option String :=
  ps.foldl (fun acc e => if e.1 = d then some e.2 else acc) none

/-- Dates of stored records are strictly ascending. -/
def dateAscending (h : List Record) : Prop :=
  h.Chain' (fun a b => a.date < b.date)

/-- No two consecutive stored records share their `lines` value
(sparse encoding). -/
def noAdjacentDup (h : List Record) : Prop :=
  h.Chain' (fun a b => a.lines ≠ b.lines)

/-- The running value `last_lines` agrees with the last stored record
(vacuous for empty history). -/
def lastLinesOk (st : BFState) : Prop :=
  ∀ r ∈ st.history.getLast?, st.last_lines = r.lines

/-- The keys (dates) of an association list, in order. -/
def keysOf (m : List (String × String)) : List String :=
  m.map Prod.fst

/-- First-match lookup in an association list (Python dict access). -/
def lookupA : List (String × String) → String → Option String
  | [], _ => none
  | e :: t, d => if e.1 = d then some e.2 else lookupA t d

/-- Left-biased choice on options. -/
def oor : Option String → Option String → Option String
  | some v, _ => some v
  | none, b => b

/-! ## Basic facts about the backfill loop -/

theorem bfStep_history_cases (st : BFState) (e : String × Nat) :
    (bfStep st e).history = st.history ∨
    (bfStep st e).history = st.history ++ [⟨e.1, e.2⟩] := by
  by_cases h : e.2 = st.last_lines
  · left; simp [bfStep, h]
  · right; simp [bfStep, h]

theorem foldl_bfStep_history_extends (entries : List (String × Nat)) :
    ∀ st : BFState, ∃ t, (entries.foldl bfStep st).history = st.history ++ t := by
  induction entries with
  | nil => intro st; exact ⟨[], by simp⟩
  | cons e rest ih =>
    intro st
    obtain ⟨t, ht⟩ := ih (bfStep st e)
    rcases bfStep_history_cases st e with h | h
    · exact ⟨t, by rw [List.foldl_cons, ht, h]⟩
    · exact ⟨⟨e.1, e.2⟩ :: t, by rw [List.foldl_cons, ht, h, List.append_assoc]; rfl⟩

/-! ## C3: badge formatting at the tier boundaries -/

/-- C3, counterexample.  The claim says `format_number 1000000 = "1000000"`;
in the source `1000000 > 1000000` is false but `1000000 > 1000` is true, so
the count falls into the `k` tier and is rendered `"1000.0k"`. -/
theorem format_number_million_is_k_suffixed :
    format_number 1000000 = "1000.0k" ∧ format_number 1000000 ≠ "1000000" := by
  exact ⟨rfl, by decide⟩

/-- C3, amended.  Both tier comparisons are strict, so `999` and `1000`
render literally, `1500` renders `"1.5k"` and `2500000` renders `"2.5M"`;
but exactly `1000000` falls through the strict `M` comparison into the `k`
tier and renders `"1000.0k"`, not the literal `"1000000"`. -/
theorem format_number_boundaries :
    format_number 999 = "999" ∧ format_number 1000 = "1000" ∧
    format_number 1500 = "1.5k" ∧ format_number 1000000 = "1000.0k" ∧
    format_number 2500000 = "2.5M" :=
  ⟨rfl, rfl, rfl, rfl, rfl⟩

/-! ## C7: the five-day worked example -/

/-- C7.  Starting from empty history, measuring `100, 100, 150, 150, 100`
on five consecutive days stores exactly the three transition records:
day 1 at 100, day 3 at 150, day 5 at 100. -/
theorem backfill_five_day_example :
    (process_backfill []
      [("2024-01-01", 100), ("2024-01-02", 100), ("2024-01-03", 150),
       ("2024-01-04", 150), ("2024-01-05", 100)] 0).history =
    [⟨"2024-01-01", 100⟩, ⟨"2024-01-03", 150⟩, ⟨"2024-01-05", 100⟩] := by
  decide

/-! ## C8: empty day selection -/

/-- C8.  When the selector returns no day entries, the loop body never
runs: the history is returned unmodified, `changes_made` is false, and
`current_lines` is the fresh count of the currently checked-out snapshot
(`count_lines_at_commit(temp_dir, None)`, source line 145), not a stored
value. -/
theorem backfill_empty_days (history : List Record) (fresh : Nat) :
    (process_backfill history [] fresh).history = history ∧
    (process_backfill history [] fresh).changes_made = false ∧
    (process_backfill history [] fresh).current_lines = fresh :=
  ⟨rfl, rfl, rfl⟩

/-! ## C4: loading a malformed history document -/

/-- C4, counterexample.  The claim says a malformed stored document loads
as the empty sequence; but `json.load` is not wrapped in any try/except
(source lines 108–111), so the decode error propagates out of the load
instead of producing `[]`. -/
theorem load_history_malformed_propagates :
    load_history true (Except.error "JSONDecodeError") =
      Except.error "JSONDecodeError" ∧
    load_history true (Except.error "JSONDecodeError") ≠
      (Except.ok [] : Except String (List Record)) :=
  ⟨rfl, fun h => Except.noConfusion h⟩

/-- C4, amended.  Loading falls back to the empty sequence only when no
stored document exists (`os.path.exists` false); when the document exists
but is malformed, the parse error propagates out of the load. -/
theorem load_history_absent_empty_malformed_raises (e : String)
    (doc : Except String (List Record)) :
    load_history false doc = Except.ok [] ∧
    load_history true (Except.error e) = Except.error e :=
  ⟨rfl, rfl⟩

/-! ## C9: measurement failure substitutes zero and continues -/

/-- C9.  A failed counter attempt for day `d` (crash, unparseable output,
failed checkout — all landing in the except branch) yields the count `0`,
and the whole backfill run behaves exactly as if day `d` had measured `0`:
in particular every other day of the run is still processed and the run
returns normally. -/
theorem counter_failure_substitutes_zero (history : List Record)
    (days : List String) (d : String) (measure : String → Option Nat)
    (fresh : Nat) (hfail : measure d = none) :
    count_lines_at_commit (measure d) = 0 ∧
    runBackfillWithCounter history days measure fresh =
      runBackfillWithCounter history days
        (Function.update measure d (some 0)) fresh := by
  constructor
  · rw [hfail]; rfl
  · unfold runBackfillWithCounter
    congr 1
    apply List.map_congr_left
    intro x _
    by_cases hxd : x = d
    · subst hxd
      rw [hfail, Function.update_same]
      rfl
    · rw [Function.update_noteq hxd]

/-- Witness for C9 at a concrete failing day. -/
theorem counter_failure_substitutes_zero_witness :
    count_lines_at_commit ((fun _ : String => (none : Option Nat)) "2024-01-01") = 0 ∧
    runBackfillWithCounter [] ["2024-01-01"] (fun _ => none) 5 =
      runBackfillWithCounter [] ["2024-01-01"]
        (Function.update (fun _ => none) "2024-01-01" (some 0)) 5 :=
  counter_failure_substitutes_zero [] ["2024-01-01"] "2024-01-01"
    (fun _ => none) 5 rfl

/-! ## C2: the first measured day on an empty history -/

/-- C2, counterexample.  With empty history the running value `last_lines`
is initialized to `0` (source line 114), so a first day measuring `0`
fails the `lines != last_lines` test and is **not** appended, contrary to
the claim that the first measured day is always stored. -/
theorem backfill_first_day_zero_not_appended :
    (process_backfill [] [("2024-01-01", 0)] 7).history = [] ∧
    (process_backfill [] [("2024-01-01", 0)] 7).changes_made = false := by
  decide

/-- C2, amended.  Starting from empty history, the first measured day is
appended (and becomes the first stored record) exactly when its measured
count differs from the initial running value `0`; a first measurement of
`0` stores nothing. -/
theorem backfill_first_day_appended_of_nonzero (d : String) (n : Nat)
    (rest : List (String × Nat)) (fresh : Nat) (h : n ≠ 0) :
    (process_backfill [] ((d, n) :: rest) fresh).history.head? =
      some ⟨d, n⟩ := by
  have e1 : process_backfill [] ((d, n) :: rest) fresh =
      rest.foldl bfStep
        { history := [⟨d, n⟩], last_lines := n, changes_made := true,
          current_lines := n } := by
    show ((d, n) :: rest).foldl bfStep _ = _
    rw [List.foldl_cons]
    congr 1
    simp [bfStep, lastLinesOf, h]
  rw [e1]
  obtain ⟨t, ht⟩ := foldl_bfStep_history_extends rest
    { history := [⟨d, n⟩], last_lines := n, changes_made := true,
      current_lines := n }
  rw [ht]
  rfl

/-- Witness for C2 (amended) at a concrete nonzero first day. -/
theorem backfill_first_day_appended_of_nonzero_witness :
    (5 : Nat) ≠ 0 ∧
    (process_backfill [] [("2024-01-01", 5), ("2024-01-02", 5)] 0).history.head? =
      some ⟨"2024-01-01", 5⟩ :=
  ⟨by decide,
   backfill_first_day_appended_of_nonzero "2024-01-01" 5 [("2024-01-02", 5)] 0
     (by decide)⟩

/-! ## C1: the backfill loop preserves the history invariants -/

theorem foldl_bfStep_invariant (entries : List (String × Nat)) :
    ∀ st : BFState,
      dateAscending st.history → noAdjacentDup st.history → lastLinesOk st →
      entries.Pairwise (fun a b => a.1 < b.1) →
      (∀ e ∈ entries, ∀ r ∈ st.history.getLast?, r.date < e.1) →
      dateAscending (entries.foldl bfStep st).history ∧
      noAdjacentDup (entries.foldl bfStep st).history ∧
      lastLinesOk (entries.foldl bfStep st) := by
  induction entries with
  | nil => intro st h1 h2 h3 _ _; exact ⟨h1, h2, h3⟩
  | cons e rest ih =>
    intro st h1 h2 h3 hp hgt
    rw [List.foldl_cons]
    by_cases hne : e.2 = st.last_lines
    · have hb : bfStep st e = { st with current_lines := e.2 } := by
        simp [bfStep, hne]
      rw [hb]
      exact ih _ h1 h2 h3 (List.pairwise_cons.mp hp).2
        (fun x hx => hgt x (List.mem_cons_of_mem _ hx))
    · have hb : bfStep st e =
          { history := st.history ++ [⟨e.1, e.2⟩], last_lines := e.2,
            changes_made := true, current_lines := e.2 } := by
        simp [bfStep, hne]
      rw [hb]
      apply ih
      · show List.Chain' _ (st.history ++ [(⟨e.1, e.2⟩ : Record)])
        refine List.chain'_append.mpr ⟨h1, List.chain'_singleton _, ?_⟩
        intro x hx y hy
        simp only [List.head?_cons, Option.mem_def, Option.some.injEq] at hy
        subst hy
        exact hgt e (List.mem_cons_self _ _) x hx
      · show List.Chain' _ (st.history ++ [(⟨e.1, e.2⟩ : Record)])
        refine List.chain'_append.mpr ⟨h2, List.chain'_singleton _, ?_⟩
        intro x hx y hy
        simp only [List.head?_cons, Option.mem_def, Option.some.injEq] at hy
        subst hy
        intro hEq
        exact hne ((h3 x hx).trans hEq).symm
      · intro r hr
        simp only [List.getLast?_concat, Option.mem_def, Option.some.injEq] at hr
        subst hr
        rfl
      · exact (List.pairwise_cons.mp hp).2
      · intro x hx r hr
        simp only [List.getLast?_concat, Option.mem_def, Option.some.injEq] at hr
        subst hr
        exact (List.pairwise_cons.mp hp).1 x hx

/-- C1.  Given a history that is date-ascending with no two consecutive
records sharing `lines`, and measured day entries as produced by the
selector (ascending dates, all strictly after the last recorded date), the
backfill loop preserves both invariants and only ever appends: the input
history is an unchanged initial segment of the result. -/
theorem backfill_preserves_invariants (history : List Record)
    (measured : List (String × Nat)) (fresh : Nat)
    (h1 : dateAscending history) (h2 : noAdjacentDup history)
    (hp : measured.Pairwise (fun a b => a.1 < b.1))
    (hgt : ∀ e ∈ measured, ∀ r ∈ history.getLast?, r.date < e.1) :
    dateAscending (process_backfill history measured fresh).history ∧
    noAdjacentDup (process_backfill history measured fresh).history ∧
    ∃ t, (process_backfill history measured fresh).history = history ++ t := by
  cases measured with
  | nil => exact ⟨h1, h2, ⟨[], by rw [List.append_nil]; rfl⟩⟩
  | cons a t =>
    have hinit : lastLinesOk
        { history := history, last_lines := lastLinesOf history,
          changes_made := false, current_lines := lastLinesOf history } := by
      intro r hr
      show lastLinesOf history = r.lines
      rw [Option.mem_def] at hr
      simp [lastLinesOf, hr]
    obtain ⟨g1, g2, _⟩ := foldl_bfStep_invariant (a :: t) _ h1 h2 hinit hp hgt
    obtain ⟨u, hu⟩ := foldl_bfStep_history_extends (a :: t)
      { history := history, last_lines := lastLinesOf history,
        changes_made := false, current_lines := lastLinesOf history }
    exact ⟨g1, g2, u, hu⟩

/-- Witness for C1 at a concrete history and day entry. -/
theorem backfill_preserves_invariants_witness :
    (dateAscending [⟨"2024-01-01", 10⟩] ∧
     noAdjacentDup [⟨"2024-01-01", 10⟩] ∧
     List.Pairwise (fun a b : String × Nat => a.1 < b.1) [("2024-01-02", 20)] ∧
     (∀ e ∈ [("2024-01-02", 20)],
        ∀ r ∈ ([⟨"2024-01-01", 10⟩] : List Record).getLast?, r.date < e.1)) ∧
    (dateAscending
        (process_backfill [⟨"2024-01-01", 10⟩] [("2024-01-02", 20)] 0).history ∧
     noAdjacentDup
        (process_backfill [⟨"2024-01-01", 10⟩] [("2024-01-02", 20)] 0).history ∧
     ∃ t, (process_backfill [⟨"2024-01-01", 10⟩] [("2024-01-02", 20)] 0).history =
        [⟨"2024-01-01", 10⟩] ++ t) := by
  have hd : (⟨"2024-01-01", 10⟩ : Record).date < "2024-01-02" := by
    rw [String.lt_iff_toList_lt]; decide
  have hh1 : dateAscending [⟨"2024-01-01", 10⟩] := List.chain'_singleton _
  have hh2 : noAdjacentDup [⟨"2024-01-01", 10⟩] := List.chain'_singleton _
  have hh3 : List.Pairwise (fun a b : String × Nat => a.1 < b.1)
      [("2024-01-02", 20)] := List.pairwise_singleton _ _
  have hh4 : ∀ e ∈ [("2024-01-02", 20)],
      ∀ r ∈ ([⟨"2024-01-01", 10⟩] : List Record).getLast?, r.date < e.1 := by
    intro e he r hr
    simp only [List.mem_singleton] at he
    simp only [List.getLast?_singleton, Option.mem_def, Option.some.injEq] at hr
    subst he
    subst hr
    exact hd
  exact ⟨⟨hh1, hh2, hh3, hh4⟩,
    backfill_preserves_invariants [⟨"2024-01-01", 10⟩] [("2024-01-02", 20)] 0
      hh1 hh2 hh3 hh4⟩

/-! ## Facts about the day selector -/

theorem oor_assoc (a b c : Option String) :
    oor (oor a b) c = oor a (oor b c) := by
  cases a <;> rfl

theorem oor_none_right (a : Option String) : oor a none = a := by
  cases a <;> rfl

theorem lastShaFor_aux (d : String) (ps : List (String × String)) :
    ∀ acc : Option String,
      ps.foldl (fun acc e => if e.1 = d then some e.2 else acc) acc =
        oor (lastShaFor ps d) acc := by
  induction ps with
  | nil => intro acc; rfl
  | cons e t ih =>
    intro acc
    have hcons : lastShaFor (e :: t) d =
        t.foldl (fun acc x => if x.1 = d then some x.2 else acc)
          (if e.1 = d then some e.2 else none) := rfl
    simp only [List.foldl_cons]
    rw [ih, hcons, ih, oor_assoc]
    congr 1
    by_cases he : e.1 = d <;> simp [he, oor]

theorem lastShaFor_cons (e : String × String) (t : List (String × String))
    (d : String) :
    lastShaFor (e :: t) d =
      oor (lastShaFor t d) (if e.1 = d then some e.2 else none) := by
  have h : lastShaFor (e :: t) d =
      t.foldl (fun acc x => if x.1 = d then some x.2 else acc)
        (if e.1 = d then some e.2 else none) := rfl
  rw [h, lastShaFor_aux]

theorem lastShaFor_eq_none_iff (ps : List (String × String)) (d : String) :
    lastShaFor ps d = none ↔ ∀ e ∈ ps, e.1 ≠ d := by
  induction ps with
  | nil => simp [lastShaFor]
  | cons e t ih =>
    rw [lastShaFor_cons, List.forall_mem_cons, ← ih]
    by_cases he : e.1 = d
    · simp only [he, if_pos rfl]
      cases lastShaFor t d <;> simp [oor]
    · simp only [if_neg he, oor_none_right]
      simp [he]

theorem lookupA_updateAssoc_self (m : List (String × String)) (k v : String) :
    lookupA (updateAssoc m k v) k = some v := by
  induction m with
  | nil => simp [updateAssoc, lookupA]
  | cons e t ih =>
    by_cases he : e.1 = k
    · simp [updateAssoc, he, lookupA]
    · simp [updateAssoc, he, lookupA, ih]

theorem lookupA_updateAssoc_ne (m : List (String × String)) (k v d : String)
    (h : k ≠ d) : lookupA (updateAssoc m k v) d = lookupA m d := by
  induction m with
  | nil => simp [updateAssoc, lookupA, h]
  | cons e t ih =>
    by_cases he : e.1 = k
    · simp [updateAssoc, he, lookupA, h]
    · simp [updateAssoc, he, lookupA, ih]

theorem mem_keysOf_updateAssoc (m : List (String × String)) (k v d : String) :
    d ∈ keysOf (updateAssoc m k v) ↔ d = k ∨ d ∈ keysOf m := by
  induction m with
  | nil => simp [updateAssoc, keysOf]
  | cons e t ih =>
    by_cases he : e.1 = k
    · subst he
      simp [updateAssoc, keysOf]
    · simp only [updateAssoc, if_neg he, keysOf, List.map_cons,
        List.mem_cons] at ih ⊢
      rw [ih]
      tauto

theorem nodup_keysOf_updateAssoc (m : List (String × String)) (k v : String)
    (h : (keysOf m).Nodup) : (keysOf (updateAssoc m k v)).Nodup := by
  induction m with
  | nil => simp [updateAssoc, keysOf]
  | cons e t ih =>
    rw [keysOf, List.map_cons, List.nodup_cons] at h
    obtain ⟨h1, h2⟩ := h
    by_cases he : e.1 = k
    · subst he
      simp only [updateAssoc, eq_self_iff_true, if_true, keysOf,
        List.map_cons, List.nodup_cons]
      exact ⟨h1, h2⟩
    · simp only [updateAssoc, if_neg he, keysOf, List.map_cons,
        List.nodup_cons]
      refine ⟨?_, ih h2⟩
      intro hmem
      rcases (mem_keysOf_updateAssoc t k v e.1).mp hmem with hk | hk
      · exact he hk
      · exact h1 hk

theorem nodup_keysOf_buildDaily (logLines : List String) :
    (keysOf (buildDaily logLines)).Nodup := by
  suffices h : ∀ m, (keysOf m).Nodup →
      (keysOf (logLines.foldl dictStep m)).Nodup by
    exact h [] (by simp [keysOf])
  induction logLines with
  | nil => intro m hm; exact hm
  | cons line rest ih =>
    intro m hm
    rw [List.foldl_cons]
    apply ih
    rcases hp : parseLogLine line with _ | ⟨date, sha⟩
    · simpa only [dictStep, hp] using hm
    · simp only [dictStep, hp]
      exact nodup_keysOf_updateAssoc m date sha hm

theorem lookupA_foldl_dictStep (d : String) (ls : List String) :
    ∀ m, lookupA (ls.foldl dictStep m) d =
      oor (lastShaFor (ls.filterMap parseLogLine) d) (lookupA m d) := by
  induction ls with
  | nil => intro m; rfl
  | cons line rest ih =>
    intro m
    rw [List.foldl_cons, ih]
    rcases hp : parseLogLine line with _ | ⟨date, sha⟩
    · rw [List.filterMap_cons_none hp]
      simp only [dictStep, hp]
    · rw [List.filterMap_cons_some hp, lastShaFor_cons, oor_assoc]
      congr 1
      simp only [dictStep, hp]
      by_cases hd : date = d
      · subst hd
        rw [lookupA_updateAssoc_self]
        simp [oor]
      · rw [lookupA_updateAssoc_ne _ _ _ _ hd]
        simp [oor, hd]

theorem lookupA_buildDaily (ls : List String) (d : String) :
    lookupA (buildDaily ls) d = lastShaFor (ls.filterMap parseLogLine) d := by
  have h0 : lookupA ([] : List (String × String)) d = none := rfl
  show lookupA (ls.foldl dictStep []) d = _
  rw [lookupA_foldl_dictStep, h0, oor_none_right]

theorem mem_of_lookupA (m : List (String × String)) (d v : String)
    (h : lookupA m d = some v) : (d, v) ∈ m := by
  induction m with
  | nil => cases h
  | cons e t ih =>
    obtain ⟨k, w⟩ := e
    simp only [lookupA] at h
    by_cases he : k = d
    · rw [if_pos he] at h
      injection h with h
      subst he
      subst h
      exact List.mem_cons_self _ _
    · rw [if_neg he] at h
      exact List.mem_cons_of_mem _ (ih h)

theorem filter_key_eq_singleton (d sha : String) :
    ∀ l : List (String × String), (keysOf l).Nodup → (d, sha) ∈ l →
      l.filter (fun e => e.1 == d) = [(d, sha)] := by
  intro l
  induction l with
  | nil => intro _ hm; cases hm
  | cons e t ih =>
    intro hn hm
    rw [keysOf, List.map_cons, List.nodup_cons] at hn
    obtain ⟨hn1, hn2⟩ := hn
    rcases List.mem_cons.mp hm with he | he
    · subst he
      rw [List.filter_cons_of_pos (by simp)]
      suffices ht : t.filter (fun e => e.1 == d) = [] by rw [ht]
      rw [List.filter_eq_nil_iff]
      intro a ha
      simp only [beq_iff_eq]
      intro had
      exact hn1 (List.mem_map.mpr ⟨a, ha, had⟩)
    · have hne : e.1 ≠ d := by
        intro h
        apply hn1
        rw [h]
        exact List.mem_map.mpr ⟨(d, sha), he, rfl⟩
      rw [List.filter_cons_of_neg (by simp [hne])]
      exact ih hn2 he

/-! ## C5: the selector keeps the last commit of each day, sorted by date -/

/-- C5.  If some calendar day `d` carries at least two commits in the
(oldest-first) log, the selector output contains exactly one entry for
`d`, its sha is the one of the chronologically last commit of that day
(the last `(d, sha)` pair in log order), and the whole output is sorted
ascending by date. -/
theorem selector_picks_last_commit_of_day (raw_log d : String)
    (hmulti : 2 ≤ (parsedPairs raw_log).countP (fun e => e.1 == d)) :
    (∃ sha, lastShaFor (parsedPairs raw_log) d = some sha ∧
       (get_daily_commits_since raw_log).filter (fun e => e.1 == d) =
         [(d, sha)]) ∧
    List.Sorted byDate (get_daily_commits_since raw_log) := by
  have hne : ¬ raw_log = "" := by
    intro h
    rw [parsedPairs, if_pos h] at hmulti
    simp at hmulti
  have hpp : parsedPairs raw_log =
      (pySplit newlineChar raw_log).filterMap parseLogLine := by
    rw [parsedPairs, if_neg hne]
  have hg : get_daily_commits_since raw_log =
      List.insertionSort byDate (buildDaily (pySplit newlineChar raw_log)) := by
    rw [get_daily_commits_since, if_neg hne]
  constructor
  · have hocc : 0 < (parsedPairs raw_log).countP (fun e => e.1 == d) :=
      lt_of_lt_of_le (by norm_num) hmulti
    obtain ⟨a, ha, had⟩ := List.countP_pos_iff.mp hocc
    obtain ⟨sha, hsha⟩ :
        ∃ sha, lastShaFor (parsedPairs raw_log) d = some sha := by
      cases hls : lastShaFor (parsedPairs raw_log) d with
      | some s => exact ⟨s, rfl⟩
      | none =>
        exact absurd (by simpa using had)
          (((lastShaFor_eq_none_iff _ d).mp hls) a ha)
    refine ⟨sha, hsha, ?_⟩
    have hlk : lookupA (buildDaily (pySplit newlineChar raw_log)) d =
        some sha := by
      rw [lookupA_buildDaily, ← hpp]
      exact hsha
    have hmem2 : (d, sha) ∈ get_daily_commits_since raw_log := by
      rw [hg]
      exact (List.mem_insertionSort byDate).mpr (mem_of_lookupA _ _ _ hlk)
    have hnodup : (keysOf (get_daily_commits_since raw_log)).Nodup := by
      rw [hg]
      have hperm := List.perm_insertionSort byDate
        (buildDaily (pySplit newlineChar raw_log))
      exact ((hperm.map Prod.fst).nodup_iff).mpr (nodup_keysOf_buildDaily _)
    exact filter_key_eq_singleton d sha _ hnodup hmem2
  · rw [hg]
    exact List.sorted_insertionSort byDate _

/-- Witness for C5 on a concrete three-commit log with a doubled day. -/
theorem selector_picks_last_commit_of_day_witness :
    2 ≤ (parsedPairs "aaa 2024-01-01\nbbb 2024-01-01\nccc 2024-01-02").countP
        (fun e => e.1 == "2024-01-01") ∧
    ((∃ sha,
        lastShaFor
          (parsedPairs "aaa 2024-01-01\nbbb 2024-01-01\nccc 2024-01-02")
          "2024-01-01" = some sha ∧
        (get_daily_commits_since
            "aaa 2024-01-01\nbbb 2024-01-01\nccc 2024-01-02").filter
          (fun e => e.1 == "2024-01-01") = [("2024-01-01", sha)]) ∧
     List.Sorted byDate
       (get_daily_commits_since
         "aaa 2024-01-01\nbbb 2024-01-01\nccc 2024-01-02")) :=
  ⟨by decide,
   selector_picks_last_commit_of_day
     "aaa 2024-01-01\nbbb 2024-01-01\nccc 2024-01-02" "2024-01-01"
     (by decide)⟩

/-! ## C10: malformed lines are skipped, one entry per date -/

/-- C10.  A log line with fewer than two space-separated fields never
changes the built dict — the selector is insensitive to removing all such
lines — and the selector output never carries two entries with the same
date (its keys are distinct). -/
theorem selector_skips_malformed_lines :
    (∀ ls : List String,
        buildDaily ls =
          buildDaily
            (ls.filter (fun line => 2 ≤ (pySplit spaceChar line).length))) ∧
    (∀ raw_log : String, (keysOf (get_daily_commits_since raw_log)).Nodup) := by
  constructor
  · intro ls
    suffices h : ∀ m, ls.foldl dictStep m =
        (ls.filter
          (fun line => 2 ≤ (pySplit spaceChar line).length)).foldl dictStep m by
      exact h []
    induction ls with
    | nil => intro m; rfl
    | cons line rest ih =>
      intro m
      by_cases hw : 2 ≤ (pySplit spaceChar line).length
      · rw [List.filter_cons_of_pos (by simpa using hw), List.foldl_cons,
          List.foldl_cons, ih]
      · rw [List.filter_cons_of_neg (by simpa using hw), List.foldl_cons]
        have hnone : parseLogLine line = none := by
          rcases hsp : pySplit spaceChar line with _ | ⟨a, _ | ⟨b, t2⟩⟩
          · unfold parseLogLine; rw [hsp]
          · unfold parseLogLine; rw [hsp]
          · exact absurd (by rw [hsp]; simp [List.length_cons]) hw
        have hd : dictStep m line = m := by simp [dictStep, hnone]
        rw [hd, ih]
  · intro raw_log
    by_cases h : raw_log = ""
    · rw [get_daily_commits_since, if_pos h]
      simp [keysOf]
    · rw [get_daily_commits_since, if_neg h]
      have hperm := List.perm_insertionSort byDate
        (buildDaily (pySplit newlineChar raw_log))
      exact ((hperm.map Prod.fst).nodup_iff).mpr (nodup_keysOf_buildDaily _)

/-! ## C6: a second backfill run with no new commits is a no-op -/

theorem foldl_bfStep_cases (entries : List (String × Nat)) :
    ∀ st : BFState,
      ((entries.foldl bfStep st).history = st.history ∧
       (entries.foldl bfStep st).last_lines = st.last_lines ∧
       (entries.foldl bfStep st).changes_made = st.changes_made) ∨
      ∃ e ∈ entries,
        (entries.foldl bfStep st).history.getLast? = some ⟨e.1, e.2⟩ ∧
        (entries.foldl bfStep st).last_lines = e.2 := by
  induction entries with
  | nil => intro st; left; exact ⟨rfl, rfl, rfl⟩
  | cons e rest ih =>
    intro st
    rw [List.foldl_cons]
    by_cases hne : e.2 = st.last_lines
    · have hb : bfStep st e = { st with current_lines := e.2 } := by
        simp [bfStep, hne]
      rw [hb]
      rcases ih { st with current_lines := e.2 } with ⟨h1, h2, h3⟩ |
        ⟨e', he', h1, h2⟩
      · left; exact ⟨h1, h2, h3⟩
      · right; exact ⟨e', List.mem_cons_of_mem _ he', h1, h2⟩
    · have hb : bfStep st e =
          { history := st.history ++ [⟨e.1, e.2⟩], last_lines := e.2,
            changes_made := true, current_lines := e.2 } := by
        simp [bfStep, hne]
      rw [hb]
      rcases ih _ with ⟨h1, h2, _⟩ | ⟨e', he', h1, h2⟩
      · right
        refine ⟨e, List.mem_cons_self _ _, ?_, ?_⟩
        · rw [h1]; exact List.getLast?_concat _
        · exact h2
      · right; exact ⟨e', List.mem_cons_of_mem _ he', h1, h2⟩

theorem foldl_bfStep_tail_constant (entries : List (String × Nat)) :
    ∀ st : BFState, entries.Pairwise (fun a b => a.1 < b.1) →
      ∀ e ∈ entries,
        (∀ r ∈ (entries.foldl bfStep st).history.getLast?, r.date < e.1) →
        e.2 = (entries.foldl bfStep st).last_lines := by
  induction entries with
  | nil => intro st _ e he; cases he
  | cons a rest ih =>
    intro st hp e he hgt
    rw [List.foldl_cons] at hgt ⊢
    rcases List.mem_cons.mp he with rfl | he'
    · rcases foldl_bfStep_cases rest (bfStep st e) with ⟨h1, h2, _⟩ |
        ⟨e', he', h1, h2⟩
      · by_cases hne : e.2 = st.last_lines
        · have hb : (bfStep st e).last_lines = st.last_lines := by
            simp [bfStep, hne]
          rw [h2, hb]
          exact hne
        · exfalso
          have hbh : (bfStep st e).history = st.history ++ [⟨e.1, e.2⟩] := by
            simp [bfStep, hne]
          have hlast : (rest.foldl bfStep (bfStep st e)).history.getLast? =
              some ⟨e.1, e.2⟩ := by
            rw [h1, hbh]
            exact List.getLast?_concat _
          exact lt_irrefl _ (hgt ⟨e.1, e.2⟩ (by rw [hlast]; rfl))
      · exfalso
        have hlt : e.1 < e'.1 := (List.pairwise_cons.mp hp).1 e' he'
        have hgt' : (⟨e'.1, e'.2⟩ : Record).date < e.1 :=
          hgt _ (by rw [h1]; rfl)
        exact lt_irrefl _ (lt_trans hlt hgt')
    · exact ih (bfStep st a) (List.pairwise_cons.mp hp).2 e he' hgt

theorem foldl_bfStep_no_change (entries : List (String × Nat)) :
    ∀ st : BFState, (∀ e ∈ entries, e.2 = st.last_lines) →
      (entries.foldl bfStep st).history = st.history ∧
      (entries.foldl bfStep st).last_lines = st.last_lines ∧
      (entries.foldl bfStep st).changes_made = st.changes_made := by
  induction entries with
  | nil => intro st _; exact ⟨rfl, rfl, rfl⟩
  | cons e rest ih =>
    intro st hall
    rw [List.foldl_cons]
    have he : e.2 = st.last_lines := hall e (List.mem_cons_self _ _)
    have hb : bfStep st e = { st with current_lines := e.2 } := by
      simp [bfStep, he]
    rw [hb]
    exact ih _ (fun x hx => hall x (List.mem_cons_of_mem _ hx))

theorem process_backfill_cases (h0 : List Record) (E : List (String × Nat))
    (fresh : Nat) :
    ((process_backfill h0 E fresh).history = h0 ∧
     (process_backfill h0 E fresh).last_lines = lastLinesOf h0 ∧
     (process_backfill h0 E fresh).changes_made = false) ∨
    ∃ e ∈ E,
      (process_backfill h0 E fresh).history.getLast? = some ⟨e.1, e.2⟩ ∧
      (process_backfill h0 E fresh).last_lines = e.2 := by
  cases E with
  | nil => left; exact ⟨rfl, rfl, rfl⟩
  | cons a t =>
    exact foldl_bfStep_cases (a :: t)
      { history := h0, last_lines := lastLinesOf h0, changes_made := false,
        current_lines := lastLinesOf h0 }

theorem process_backfill_tail_constant (h0 : List Record)
    (E : List (String × Nat)) (fresh : Nat)
    (hp : E.Pairwise (fun a b => a.1 < b.1)) :
    ∀ e ∈ E,
      (∀ r ∈ (process_backfill h0 E fresh).history.getLast?, r.date < e.1) →
      e.2 = (process_backfill h0 E fresh).last_lines := by
  cases E with
  | nil => intro e he; cases he
  | cons a t =>
    exact foldl_bfStep_tail_constant (a :: t)
      { history := h0, last_lines := lastLinesOf h0, changes_made := false,
        current_lines := lastLinesOf h0 } hp

theorem process_backfill_no_change (h0 : List Record)
    (E : List (String × Nat)) (fresh : Nat)
    (hall : ∀ e ∈ E, e.2 = lastLinesOf h0) :
    (process_backfill h0 E fresh).history = h0 ∧
    (process_backfill h0 E fresh).changes_made = false := by
  cases E with
  | nil => exact ⟨rfl, rfl⟩
  | cons a t =>
    obtain ⟨h1, _, h3⟩ := foldl_bfStep_no_change (a :: t)
      { history := h0, last_lines := lastLinesOf h0, changes_made := false,
        current_lines := lastLinesOf h0 } hall
    exact ⟨h1, h3⟩

theorem mem_selectedDays (allDays : List (String × Nat)) (h : List Record)
    (e : String × Nat) :
    e ∈ selectedDays allDays h ↔
      e ∈ allDays ∧ ∀ r ∈ h.getLast?, r.date < e.1 := by
  rcases hl : h.getLast? with _ | r
  · simp [selectedDays, hl]
  · simp [selectedDays, hl, List.mem_filter, Option.mem_def]

theorem pairwise_selectedDays (allDays : List (String × Nat))
    (h : List Record)
    (hp : allDays.Pairwise (fun a b => a.1 < b.1)) :
    (selectedDays allDays h).Pairwise (fun a b => a.1 < b.1) := by
  rcases hl : h.getLast? with _ | r
  · simpa [selectedDays, hl] using hp
  · simp only [selectedDays, hl]
    exact List.Pairwise.sublist (List.filter_sublist _) hp

theorem second_selection_values (allDays : List (String × Nat))
    (history : List Record) (fresh1 : Nat)
    (hp : allDays.Pairwise (fun a b => a.1 < b.1)) :
    ∀ e ∈ selectedDays allDays
        (process_backfill history (selectedDays allDays history) fresh1).history,
      e.2 = lastLinesOf
        (process_backfill history (selectedDays allDays history) fresh1).history := by
  intro e he
  rw [mem_selectedDays] at he
  obtain ⟨heA, heGt⟩ := he
  have hE1p : (selectedDays allDays history).Pairwise
      (fun a b => a.1 < b.1) := pairwise_selectedDays _ _ hp
  rcases process_backfill_cases history (selectedDays allDays history) fresh1
    with ⟨h1, h2, _⟩ | ⟨e', he', h1, h2⟩
  · have he1 : e ∈ selectedDays allDays history := by
      rw [mem_selectedDays]
      refine ⟨heA, ?_⟩
      rw [← h1]
      exact heGt
    have hT := process_backfill_tail_constant history
      (selectedDays allDays history) fresh1 hE1p e he1 heGt
    rw [h1, ← h2]
    exact hT
  · have he'1 := (mem_selectedDays allDays history e').mp he'
    have hgt' : (⟨e'.1, e'.2⟩ : Record).date < e.1 :=
      heGt _ (by rw [h1]; rfl)
    have he1 : e ∈ selectedDays allDays history := by
      rw [mem_selectedDays]
      refine ⟨heA, ?_⟩
      intro r0 hr0
      exact lt_trans (he'1.2 r0 hr0) hgt'
    have hT := process_backfill_tail_constant history
      (selectedDays allDays history) fresh1 hE1p e he1 heGt
    have hlv : lastLinesOf
        (process_backfill history (selectedDays allDays history) fresh1).history
        = e'.2 := by
      rw [lastLinesOf, h1]
    rw [hlv, ← h2]
    exact hT

/-- C6.  With the world of measured days fixed (ascending dates, no new
commits between the two passes), a second backfill pass right after a
first one leaves the stored history exactly as the first pass left it and
reports `changes_made = false`: every day the second pass re-selects
(strictly after the new last recorded date) re-measures the value already
running at the end of the first pass, so the sparse test stores nothing. -/
theorem backfill_idempotent (allDays : List (String × Nat))
    (history : List Record) (fresh1 fresh2 : Nat)
    (hp : allDays.Pairwise (fun a b => a.1 < b.1)) :
    (runBackfill allDays (runBackfill allDays history fresh1).history
        fresh2).history
      = (runBackfill allDays history fresh1).history ∧
    (runBackfill allDays (runBackfill allDays history fresh1).history
        fresh2).changes_made = false := by
  have hK := second_selection_values allDays history fresh1 hp
  exact process_backfill_no_change _ _ fresh2 hK

/-- Witness for C6 on a concrete two-day world starting from empty
history. -/
theorem backfill_idempotent_witness :
    List.Pairwise (fun a b : String × Nat => a.1 < b.1)
      [("2024-01-01", 100), ("2024-01-02", 100)] ∧
    ((runBackfill [("2024-01-01", 100), ("2024-01-02", 100)]
        (runBackfill [("2024-01-01", 100), ("2024-01-02", 100)] [] 0).history
        0).history
      = (runBackfill [("2024-01-01", 100), ("2024-01-02", 100)] [] 0).history ∧
     (runBackfill [("2024-01-01", 100), ("2024-01-02", 100)]
        (runBackfill [("2024-01-01", 100), ("2024-01-02", 100)] [] 0).history
        0).changes_made = false) := by
  have hp : List.Pairwise (fun a b : String × Nat => a.1 < b.1)
      [("2024-01-01", 100), ("2024-01-02", 100)] := by
    refine List.pairwise_cons.mpr ⟨?_, List.pairwise_singleton _ _⟩
    intro b hb
    rw [List.mem_singleton] at hb
    subst hb
    show ("2024-01-01" : String) < "2024-01-02"
    rw [String.lt_iff_toList_lt]
    decide
  exact ⟨hp, backfill_idempotent _ _ 0 0 hp⟩
